import Mathlib

/-!
Verification of the gradient ramp cache of the `vello_hybrid` renderer
(`src/sparse_strips/vello_hybrid/src/gradient_cache.rs`).

The Rust module is embedded shallowly:
  * the `HashMap<CacheKey, CachedRamp>` is an association list
    `List (Nat × CachedRamp)` with pairwise-distinct keys (the cache key is
    opaque to the module — only equality is used — so it is modelled as `Nat`);
  * the packed `Vec<u8>` buffer is a `List Nat` of bytes;
  * the external ramp generator is pure and deterministic per key, so an
    `EncodedGradient` carries the bytes it would append and the width it would
    report; the generator contract (it appends `width * BYTES_PER_TEXEL`
    bytes) is the explicit predicate `GenOK`;
  * HashMap iteration order is unspecified in Rust; the list model iterates in
    list order, a conforming refinement (the spec leaves rebuild order open).
-/

set_option linter.unusedVariables false

namespace GradientCache

/-- Number of bytes per texel in the gradient texture (`Rgba8Unorm`). -/
def BYTES_PER_TEXEL : Nat := 4

/-- Cached gradient ramp location in the packed LUT buffer
(struct `CachedRamp`). -/
structure CachedRamp where
  width : Nat
  lut_start : Nat
  last_used : Nat
deriving DecidableEq, Repr

/-- What the cache sees of an encoded gradient: its opaque cache key plus the
bytes/width the external generator would produce for it
(`generate_gradient_lut_impl` is external pure work). -/
structure EncodedGradient where
  cache_key : Nat
  lutBytes : List Nat
  lutWidth : Nat
deriving DecidableEq, Repr

/-- Generator contract: the appended bytes fill exactly `width` texels. -/
def GenOK (g : EncodedGradient) : Prop :=
  g.lutBytes.length = BYTES_PER_TEXEL * g.lutWidth

instance (g : EncodedGradient) : Decidable (GenOK g) := by
  unfold GenOK; infer_instance

/-- The cache state (struct `GradientRampCache`). The SIMD `level` only
selects the generation strategy, which is external and semantically
level-independent; it is kept as an opaque `Nat`. -/
structure GradientRampCache where
  cache : List (Nat × CachedRamp)
  luts : List Nat
  has_changed : Bool
  epoch : Nat
  level : Nat
deriving DecidableEq, Repr

/-- `HashMap::get` on the association list. -/
def lookupRamp : List (Nat × CachedRamp) → Nat → Option CachedRamp
  | [], _ => none
  | (k, r) :: rest, key => if k = key then some r else lookupRamp rest key

/-- The in-place `ramp.last_used = self.epoch` write performed on a hit. -/
def touch (c : List (Nat × CachedRamp)) (key : Nat) (e : Nat) :
    List (Nat × CachedRamp) :=
  c.map (fun p => if p.1 = key then (p.1, { p.2 with last_used := e }) else p)

/-- `GradientRampCache::new`. -/
def new (level : Nat) : GradientRampCache :=
  { cache := [], luts := [], has_changed := false, epoch := 0, level := level }

/-- `GradientRampCache::get_or_create_ramp`: on a hit, bump `last_used` and
return the stored location; on a miss, append the generated bytes, record the
new entry and set the change flag. -/
def get_or_create_ramp (s : GradientRampCache) (g : EncodedGradient) :
    (Nat × Nat) × GradientRampCache :=
  match lookupRamp s.cache g.cache_key with
  | some ramp =>
      ((ramp.lut_start, ramp.width),
        { s with cache := touch s.cache g.cache_key s.epoch })
  | none =>
      let lut_start := s.luts.length / BYTES_PER_TEXEL
      let width := g.lutWidth
      ((lut_start, width),
        { s with
          cache := s.cache ++
            [(g.cache_key,
              { width := width, lut_start := lut_start, last_used := s.epoch })],
          luts := s.luts ++ g.lutBytes,
          has_changed := true })

/-- `&self.luts[start..start+len]`, as drop-then-take. -/
def sliceBytes (l : List Nat) (start len : Nat) : List Nat :=
  (l.drop start).take len

/-- The compaction loop body of `maintain`: copy each surviving entry's byte
region into the new buffer at the next free offset and rewrite its
`lut_start`. -/
def rebuildGo (old : List Nat) :
    List (Nat × CachedRamp) → List Nat → List (Nat × CachedRamp) × List Nat
  | [], acc => ([], acc)
  | (k, r) :: rest, acc =>
      let src := sliceBytes old (r.lut_start * BYTES_PER_TEXEL)
        (r.width * BYTES_PER_TEXEL)
      let r2 : CachedRamp := { r with lut_start := acc.length / BYTES_PER_TEXEL }
      let next := rebuildGo old rest (acc ++ src)
      ((k, r2) :: next.1, next.2)

/-- The `retain` predicate of `maintain`: keep `r` iff `r.last_used >= epoch`. -/
def keepRamp (e : Nat) (p : Nat × CachedRamp) : Bool :=
  decide (e ≤ p.2.last_used)

/-- `GradientRampCache::maintain`: evict entries not used this epoch; if any
was evicted, rebuild the buffer compactly and set the change flag; always
advance the epoch by one. -/
def maintain (s : GradientRampCache) : GradientRampCache :=
  let survivors := s.cache.filter (keepRamp s.epoch)
  if survivors.length < s.cache.length then
    let rebuilt := rebuildGo s.luts survivors []
    { s with
      cache := rebuilt.1
      luts := rebuilt.2
      has_changed := true
      epoch := s.epoch + 1 }
  else
    { s with cache := survivors, epoch := s.epoch + 1 }

/-- `GradientRampCache::luts_size`. -/
def luts_size (s : GradientRampCache) : Nat :=
  s.luts.length

/-- `GradientRampCache::is_empty`. -/
def is_empty (s : GradientRampCache) : Bool :=
  s.luts.isEmpty

/-- `GradientRampCache::mark_synced`. -/
def mark_synced (s : GradientRampCache) : GradientRampCache :=
  { s with has_changed := false }

/-- `GradientRampCache::take_luts`: `mem::take` of the buffer. -/
def take_luts (s : GradientRampCache) : List Nat × GradientRampCache :=
  (s.luts, { s with luts := [] })

/-- `GradientRampCache::restore_luts`. -/
def restore_luts (s : GradientRampCache) (l : List Nat) : GradientRampCache :=
  { s with luts := l }

/-- Sum of entry widths, in texels. -/
def sumWidths (c : List (Nat × CachedRamp)) : Nat :=
  (c.map (fun p => p.2.width)).sum

/-- The packed-layout check: starting at texel `pos`, the entries sit
back-to-back, each `lut_start` equal to the running offset. -/
def wellPacked : List (Nat × CachedRamp) → Nat → Bool
  | [], _ => true
  | (_, r) :: rest, pos => (r.lut_start == pos) && wellPacked rest (pos + r.width)

/-- The inductive state invariant: entries tile the buffer back-to-back from
texel 0, the buffer length is exactly the widths' total in bytes, and cache
keys are pairwise distinct (as in a `HashMap`). -/
def WF (s : GradientRampCache) : Prop :=
  wellPacked s.cache 0 = true ∧
  s.luts.length = BYTES_PER_TEXEL * sumWidths s.cache ∧
  (s.cache.map Prod.fst).Nodup

instance (s : GradientRampCache) : Decidable (WF s) := by
  unfold WF; infer_instance

/-- Byte `b` lies in ramp `r`'s region of the packed buffer. -/
def coveredBy (r : CachedRamp) (b : Nat) : Prop :=
  r.lut_start * BYTES_PER_TEXEL ≤ b ∧
  b < r.lut_start * BYTES_PER_TEXEL + r.width * BYTES_PER_TEXEL

/-- Live entries' byte regions are pairwise disjoint. -/
def regionsDisjoint (c : List (Nat × CachedRamp)) : Prop :=
  c.Pairwise (fun p q => ∀ b, ¬(coveredBy p.2 b ∧ coveredBy q.2 b))

/-- Live entries' byte regions jointly cover `[0, len)`. -/
def regionsCover (c : List (Nat × CachedRamp)) (len : Nat) : Prop :=
  ∀ b, b < len → ∃ p ∈ c, coveredBy p.2 b

/-- The layout facts claimed of every reachable state: the widths (in bytes)
sum to the buffer length and the regions partition `[0, length)`. -/
def LayoutOK (s : GradientRampCache) : Prop :=
  (s.cache.map (fun p => p.2.width * BYTES_PER_TEXEL)).sum = s.luts.length ∧
  regionsDisjoint s.cache ∧
  regionsCover s.cache s.luts.length

/-- Every entry's `last_used` is strictly below the current epoch: the state
of a cache at a frame boundary (right after `maintain`, or freshly built). -/
def FrameStart (s : GradientRampCache) : Prop :=
  ∀ p ∈ s.cache, p.2.last_used < s.epoch

instance (s : GradientRampCache) : Decidable (FrameStart s) := by
  unfold FrameStart; infer_instance

/-- Every entry's `last_used` is at most the current epoch (spec invariant 1). -/
def EpochLE (s : GradientRampCache) : Prop :=
  ∀ p ∈ s.cache, p.2.last_used ≤ s.epoch

/-- Run a frame's worth of lookups. -/
def runGets (s : GradientRampCache) : List EncodedGradient → GradientRampCache
  | [] => s
  | g :: gs => runGets (get_or_create_ramp s g).2 gs

/-- One cache operation, for whole-trace statements. -/
inductive Op where
  | lookupOp (g : EncodedGradient)
  | maintainOp
  | markSyncedOp
  | takeOp
  | restoreOp (l : List Nat)
deriving Repr, DecidableEq

/-- Apply one operation to the state. -/
def applyOp (s : GradientRampCache) : Op → GradientRampCache
  | .lookupOp g => (get_or_create_ramp s g).2
  | .maintainOp => maintain s
  | .markSyncedOp => mark_synced s
  | .takeOp => (take_luts s).2
  | .restoreOp l => restore_luts s l

/-- Run a sequence of operations. -/
def runOps (s : GradientRampCache) : List Op → GradientRampCache
  | [] => s
  | op :: ops => runOps (applyOp s op) ops

/-! ### Concrete sample data (used to exercise the theorems) -/

/-- A width-1 gradient with key 5. -/
def sampleG1 : EncodedGradient :=
  { cache_key := 5, lutBytes := [1, 2, 3, 4], lutWidth := 1 }

/-- A width-2 gradient with key 7. -/
def sampleG2 : EncodedGradient :=
  { cache_key := 7, lutBytes := [9, 9, 9, 9, 8, 8, 8, 8], lutWidth := 2 }

/-- A zero-width gradient with key 11. -/
def sampleG0 : EncodedGradient :=
  { cache_key := 11, lutBytes := [], lutWidth := 0 }

/-- A gradient whose key 2 is already cached in `sampleState`. -/
def sampleGHit : EncodedGradient :=
  { cache_key := 2, lutBytes := [0, 0, 0, 0], lutWidth := 1 }

/-- A well-formed two-entry state at epoch 1: entry 1 is stale
(`last_used = 0`), entry 2 was used this frame (`last_used = 1`). -/
def sampleState : GradientRampCache :=
  { cache := [(1, { width := 1, lut_start := 0, last_used := 0 }),
              (2, { width := 1, lut_start := 1, last_used := 1 })]
    luts := [10, 11, 12, 13, 20, 21, 22, 23]
    has_changed := false
    epoch := 1
    level := 0 }

/-- A one-entry state at a frame boundary: the entry's `last_used` is strictly
below the epoch. -/
def frameState : GradientRampCache :=
  { cache := [(1, { width := 1, lut_start := 0, last_used := 0 })]
    luts := [10, 11, 12, 13]
    has_changed := false
    epoch := 1
    level := 0 }

/-- A one-entry state whose entry was used in the current epoch. -/
def freshState : GradientRampCache :=
  { cache := [(1, { width := 1, lut_start := 0, last_used := 0 })]
    luts := [10, 11, 12, 13]
    has_changed := false
    epoch := 0
    level := 0 }

/-! ### Association-list lemmas -/

theorem lookupRamp_cons (k0 : Nat) (r0 : CachedRamp)
    (rest : List (Nat × CachedRamp)) (key : Nat) :
    lookupRamp ((k0, r0) :: rest) key =
      if k0 = key then some r0 else lookupRamp rest key := rfl

theorem touch_cons (k0 : Nat) (r0 : CachedRamp)
    (rest : List (Nat × CachedRamp)) (k e : Nat) :
    touch ((k0, r0) :: rest) k e =
      (if k0 = k then (k0, { r0 with last_used := e }) else (k0, r0)) ::
        touch rest k e := by
  by_cases h : k0 = k <;> simp [touch, h]

theorem lookupRamp_eq_none_iff (c : List (Nat × CachedRamp)) (k : Nat) :
    lookupRamp c k = none ↔ k ∉ c.map Prod.fst := by
  induction c with
  | nil => simp [lookupRamp]
  | cons p rest ih =>
    obtain ⟨k0, r0⟩ := p
    by_cases h : k0 = k
    · subst h; simp [lookupRamp_cons]
    · have h2 : k ≠ k0 := fun hh => h hh.symm
      rw [lookupRamp_cons, if_neg h, ih]
      simp [h2]

theorem lookupRamp_append_of_none (c d : List (Nat × CachedRamp)) (k : Nat)
    (h : lookupRamp c k = none) : lookupRamp (c ++ d) k = lookupRamp d k := by
  induction c with
  | nil => simp
  | cons p rest ih =>
    obtain ⟨k0, r0⟩ := p
    by_cases hk : k0 = k
    · subst hk; simp [lookupRamp] at h
    · simp only [lookupRamp, hk, if_false] at h ⊢
      simp [lookupRamp, hk, ih h]

theorem lookupRamp_append_of_some (c d : List (Nat × CachedRamp)) (k : Nat)
    (r : CachedRamp) (h : lookupRamp c k = some r) :
    lookupRamp (c ++ d) k = some r := by
  induction c with
  | nil => simp [lookupRamp] at h
  | cons p rest ih =>
    obtain ⟨k0, r0⟩ := p
    by_cases hk : k0 = k
    · subst hk; simp [lookupRamp] at h ⊢; exact h
    · simp only [lookupRamp, hk, if_false] at h ⊢
      simp [lookupRamp, hk, ih h]

theorem lookupRamp_touch_self (c : List (Nat × CachedRamp)) (k e : Nat) :
    lookupRamp (touch c k e) k =
      (lookupRamp c k).map (fun r => { r with last_used := e }) := by
  induction c with
  | nil => simp [touch, lookupRamp]
  | cons p rest ih =>
    obtain ⟨k0, r0⟩ := p
    rw [touch_cons]
    by_cases hk : k0 = k
    · rw [if_pos hk, lookupRamp_cons, lookupRamp_cons, if_pos hk, if_pos hk]
      rfl
    · rw [if_neg hk, lookupRamp_cons, lookupRamp_cons, if_neg hk, if_neg hk]
      exact ih

theorem lookupRamp_touch_ne (c : List (Nat × CachedRamp)) (k e k2 : Nat)
    (h : k2 ≠ k) : lookupRamp (touch c k e) k2 = lookupRamp c k2 := by
  induction c with
  | nil => simp [touch, lookupRamp]
  | cons p rest ih =>
    obtain ⟨k0, r0⟩ := p
    rw [touch_cons]
    by_cases hk : k0 = k
    · have hne : k0 ≠ k2 := by rw [hk]; exact fun hh => h hh.symm
      rw [if_pos hk, lookupRamp_cons, lookupRamp_cons, if_neg hne, if_neg hne]
      exact ih
    · rw [if_neg hk, lookupRamp_cons, lookupRamp_cons]
      by_cases hk2 : k0 = k2
      · rw [if_pos hk2, if_pos hk2]
      · rw [if_neg hk2, if_neg hk2]
        exact ih

theorem touch_map_fst (c : List (Nat × CachedRamp)) (k e : Nat) :
    (touch c k e).map Prod.fst = c.map Prod.fst := by
  induction c with
  | nil => simp [touch]
  | cons p rest ih =>
    obtain ⟨k0, r0⟩ := p
    rw [touch_cons]
    by_cases hk : k0 = k
    · rw [if_pos hk]; simpa using ih
    · rw [if_neg hk]; simpa using ih

theorem sumWidths_touch (c : List (Nat × CachedRamp)) (k e : Nat) :
    sumWidths (touch c k e) = sumWidths c := by
  induction c with
  | nil => rfl
  | cons p rest ih =>
    obtain ⟨k0, r0⟩ := p
    rw [touch_cons]
    by_cases hk : k0 = k
    · rw [if_pos hk]
      simp only [sumWidths, List.map_cons, List.sum_cons] at ih ⊢
      omega
    · rw [if_neg hk]
      simp only [sumWidths, List.map_cons, List.sum_cons] at ih ⊢
      omega

theorem sumWidths_append (c d : List (Nat × CachedRamp)) :
    sumWidths (c ++ d) = sumWidths c + sumWidths d := by
  simp [sumWidths]

theorem wellPacked_touch (c : List (Nat × CachedRamp)) (k e pos : Nat) :
    wellPacked (touch c k e) pos = wellPacked c pos := by
  induction c generalizing pos with
  | nil => rfl
  | cons p rest ih =>
    obtain ⟨k0, r0⟩ := p
    rw [touch_cons]
    by_cases hk : k0 = k
    · rw [if_pos hk]
      show (r0.lut_start == pos && wellPacked (touch rest k e) (pos + r0.width))
        = (r0.lut_start == pos && wellPacked rest (pos + r0.width))
      rw [ih]
    · rw [if_neg hk]
      show (r0.lut_start == pos && wellPacked (touch rest k e) (pos + r0.width))
        = (r0.lut_start == pos && wellPacked rest (pos + r0.width))
      rw [ih]

theorem lookupRamp_filter_none (c : List (Nat × CachedRamp))
    (f : Nat × CachedRamp → Bool) (k : Nat)
    (h : lookupRamp c k = none) : lookupRamp (c.filter f) k = none := by
  rw [lookupRamp_eq_none_iff] at h ⊢
  intro hmem
  apply h
  obtain ⟨p, hp, hpk⟩ := List.mem_map.1 hmem
  exact List.mem_map.2 ⟨p, List.mem_of_mem_filter hp, hpk⟩

theorem lookupRamp_filter (c : List (Nat × CachedRamp))
    (f : Nat × CachedRamp → Bool) (k : Nat)
    (hnd : (c.map Prod.fst).Nodup) :
    lookupRamp (c.filter f) k =
      (lookupRamp c k).bind (fun r => if f (k, r) then some r else none) := by
  induction c with
  | nil => simp [lookupRamp]
  | cons p rest ih =>
    obtain ⟨k0, r0⟩ := p
    simp only [List.map_cons, List.nodup_cons] at hnd
    by_cases hk : k0 = k
    · subst hk
      have hnone : lookupRamp rest k0 = none :=
        (lookupRamp_eq_none_iff rest k0).2 hnd.1
      by_cases hf : f (k0, r0)
      · rw [List.filter_cons_of_pos hf, lookupRamp_cons, if_pos rfl,
          lookupRamp_cons, if_pos rfl]
        simp [hf]
      · rw [List.filter_cons_of_neg (by simpa using hf), lookupRamp_cons,
          if_pos rfl, lookupRamp_filter_none rest f k0 hnone]
        simp [hf]
    · by_cases hf : f (k0, r0)
      · rw [List.filter_cons_of_pos hf, lookupRamp_cons, if_neg hk,
          lookupRamp_cons, if_neg hk]
        exact ih hnd.2
      · rw [List.filter_cons_of_neg (by simpa using hf), lookupRamp_cons,
          if_neg hk]
        exact ih hnd.2

/-! ### Packed-layout lemmas -/

theorem wellPacked_cons (k0 : Nat) (r0 : CachedRamp)
    (rest : List (Nat × CachedRamp)) (pos : Nat) :
    wellPacked ((k0, r0) :: rest) pos =
      (r0.lut_start == pos && wellPacked rest (pos + r0.width)) := rfl

theorem wellPacked_append_one (c : List (Nat × CachedRamp)) (pos : Nat)
    (h : wellPacked c pos = true) (k w e : Nat) :
    ((wellPacked (c ++
      [(k, { width := w, lut_start := pos + sumWidths c, last_used := e })])
      pos) : Bool) = true := by
  induction c generalizing pos with
  | nil => simp [wellPacked, sumWidths]
  | cons p rest ih =>
    obtain ⟨k0, r0⟩ := p
    rw [wellPacked_cons] at h
    simp only [Bool.and_eq_true, beq_iff_eq] at h
    rw [List.cons_append, wellPacked_cons]
    have := ih (pos + r0.width) h.2
    simp only [sumWidths, List.map_cons, List.sum_cons] at this ⊢
    rw [h.1]
    simp only [beq_self_eq_true, Bool.true_and]
    have harith : pos + r0.width + (rest.map fun p => p.2.width).sum
        = pos + (r0.width + (rest.map fun p => p.2.width).sum) := by omega
    rw [← harith]
    exact this

theorem wellPacked_bounds (c : List (Nat × CachedRamp)) (pos : Nat)
    (h : wellPacked c pos = true) :
    ∀ p ∈ c, pos ≤ p.2.lut_start ∧
      p.2.lut_start + p.2.width ≤ pos + sumWidths c := by
  induction c generalizing pos with
  | nil => intro p hp; simp at hp
  | cons q rest ih =>
    obtain ⟨k0, r0⟩ := q
    rw [wellPacked_cons] at h
    simp only [Bool.and_eq_true, beq_iff_eq] at h
    intro p hp
    simp only [sumWidths, List.map_cons, List.sum_cons]
    rcases List.mem_cons.1 hp with hp | hp
    · subst hp
      simp only
      omega
    · have := ih (pos + r0.width) h.2 p hp
      simp only [sumWidths] at this
      omega

theorem wellPacked_ordered (c : List (Nat × CachedRamp)) (pos : Nat)
    (h : wellPacked c pos = true) :
    c.Pairwise (fun p q => p.2.lut_start + p.2.width ≤ q.2.lut_start) := by
  induction c generalizing pos with
  | nil => exact List.Pairwise.nil
  | cons q rest ih =>
    obtain ⟨k0, r0⟩ := q
    rw [wellPacked_cons] at h
    simp only [Bool.and_eq_true, beq_iff_eq] at h
    refine List.Pairwise.cons ?_ (ih (pos + r0.width) h.2)
    intro p hp
    have := wellPacked_bounds rest (pos + r0.width) h.2 p hp
    simp only
    omega

theorem wellPacked_cover (c : List (Nat × CachedRamp)) (pos : Nat)
    (h : wellPacked c pos = true) :
    ∀ b, pos * BYTES_PER_TEXEL ≤ b →
      b < (pos + sumWidths c) * BYTES_PER_TEXEL →
      ∃ p ∈ c, coveredBy p.2 b := by
  induction c generalizing pos with
  | nil =>
    intro b hb1 hb2
    simp only [sumWidths, List.map_nil, List.sum_nil, Nat.add_zero] at hb2
    omega
  | cons q rest ih =>
    obtain ⟨k0, r0⟩ := q
    rw [wellPacked_cons] at h
    simp only [Bool.and_eq_true, beq_iff_eq] at h
    intro b hb1 hb2
    by_cases hcase : b < (pos + r0.width) * BYTES_PER_TEXEL
    · refine ⟨(k0, r0), List.mem_cons_self _ _, ?_⟩
      unfold coveredBy
      simp only [BYTES_PER_TEXEL] at hcase hb1 hb2 ⊢
      rw [h.1]
      omega
    · have hb1' : (pos + r0.width) * BYTES_PER_TEXEL ≤ b := by omega
      have hb2' : b < (pos + r0.width + sumWidths rest) * BYTES_PER_TEXEL := by
        simp only [sumWidths, List.map_cons, List.sum_cons] at hb2
        simp only [sumWidths]
        have : pos + r0.width + (rest.map fun p => p.2.width).sum
            = pos + (r0.width + (rest.map fun p => p.2.width).sum) := by omega
        rw [this]
        exact hb2
      obtain ⟨p, hp, hcov⟩ := ih (pos + r0.width) h.2 b hb1' hb2'
      exact ⟨p, List.mem_cons_of_mem _ hp, hcov⟩

/-! ### Epoch helper lemmas -/

theorem get_epoch (s : GradientRampCache) (g : EncodedGradient) :
    (get_or_create_ramp s g).2.epoch = s.epoch := by
  cases h : lookupRamp s.cache g.cache_key <;> simp [get_or_create_ramp, h]

theorem maintain_epoch (s : GradientRampCache) :
    (maintain s).epoch = s.epoch + 1 := by
  by_cases hc :
      (s.cache.filter (keepRamp s.epoch)).length < s.cache.length <;>
    simp [maintain, hc]

theorem epoch_le_applyOp (s : GradientRampCache) (op : Op) :
    s.epoch ≤ (applyOp s op).epoch := by
  cases op with
  | lookupOp g =>
    rw [applyOp, get_epoch]
  | maintainOp =>
    rw [applyOp, maintain_epoch]
    omega
  | markSyncedOp => exact Nat.le_refl _
  | takeOp => exact Nat.le_refl _
  | restoreOp l => exact Nat.le_refl _

theorem epoch_le_runOps (ops : List Op) :
    ∀ s : GradientRampCache, s.epoch ≤ (runOps s ops).epoch := by
  induction ops with
  | nil => intro s; exact Nat.le_refl _
  | cons op rest ih =>
    intro s
    exact Nat.le_trans (epoch_le_applyOp s op) (ih (applyOp s op))

/-! ### Claim theorems: C7, C9, C10 -/

/-- Claim C7: a fresh cache's epoch is 0; `maintain` increments the epoch by
exactly one, unconditionally; no other operation changes it; and the epoch is
monotonically non-decreasing over every operation sequence. -/
theorem epoch_spec (lvl : Nat) (s : GradientRampCache) (g : EncodedGradient)
    (l : List Nat) (ops : List Op) :
    (new lvl).epoch = 0 ∧
    (maintain s).epoch = s.epoch + 1 ∧
    (get_or_create_ramp s g).2.epoch = s.epoch ∧
    (mark_synced s).epoch = s.epoch ∧
    (take_luts s).2.epoch = s.epoch ∧
    (restore_luts s l).epoch = s.epoch ∧
    s.epoch ≤ (runOps s ops).epoch :=
  ⟨rfl, maintain_epoch s, get_epoch s g, rfl, rfl, rfl, epoch_le_runOps ops s⟩

/-- Claim C9: `take_luts` returns the packed buffer and leaves an empty one
(the cache then reports empty), and `restore_luts` with that same buffer is a
round-trip returning the cache to its exact pre-take state. -/
theorem take_restore_roundtrip (s : GradientRampCache) :
    (take_luts s).1 = s.luts ∧
    (take_luts s).2.luts = [] ∧
    is_empty (take_luts s).2 = true ∧
    restore_luts (take_luts s).2 (take_luts s).1 = s ∧
    luts_size (restore_luts (take_luts s).2 (take_luts s).1) = luts_size s :=
  ⟨rfl, rfl, rfl, rfl, rfl⟩

/-- Claim C10: `take_luts` and `restore_luts` modify only the packed buffer:
the cache store, the epoch and the change flag are all left unchanged. -/
theorem take_restore_frame (s : GradientRampCache) (l : List Nat) :
    (take_luts s).2.cache = s.cache ∧
    (take_luts s).2.epoch = s.epoch ∧
    (take_luts s).2.has_changed = s.has_changed ∧
    (take_luts s).2.level = s.level ∧
    (restore_luts s l).cache = s.cache ∧
    (restore_luts s l).epoch = s.epoch ∧
    (restore_luts s l).has_changed = s.has_changed ∧
    (restore_luts s l).level = s.level :=
  ⟨rfl, rfl, rfl, rfl, rfl, rfl, rfl, rfl⟩

/-! ### Lookup result stability under non-maintenance operations -/

theorem get_result_lookup (s : GradientRampCache) (g : EncodedGradient) :
    ∃ r, lookupRamp (get_or_create_ramp s g).2.cache g.cache_key = some r ∧
      (r.lut_start, r.width) = (get_or_create_ramp s g).1 := by
  cases h : lookupRamp s.cache g.cache_key with
  | some r =>
    refine ⟨{ r with last_used := s.epoch }, ?_, ?_⟩
    · simp only [get_or_create_ramp, h, lookupRamp_touch_self]
      rfl
    · simp [get_or_create_ramp, h]
  | none =>
    refine ⟨{ width := g.lutWidth,
              lut_start := s.luts.length / BYTES_PER_TEXEL,
              last_used := s.epoch }, ?_, ?_⟩
    · simp only [get_or_create_ramp, h]
      rw [lookupRamp_append_of_none _ _ _ h]
      simp [lookupRamp]
    · simp [get_or_create_ramp, h]

theorem lookup_stable_applyOp (s : GradientRampCache) (op : Op) (k : Nat)
    (r : CachedRamp) (hop : op ≠ Op.maintainOp)
    (h : lookupRamp s.cache k = some r) :
    ∃ r2, lookupRamp (applyOp s op).cache k = some r2 ∧
      r2.lut_start = r.lut_start ∧ r2.width = r.width := by
  cases op with
  | lookupOp g =>
    cases hg : lookupRamp s.cache g.cache_key with
    | some rg =>
      by_cases hk : g.cache_key = k
      · subst hk
        rw [hg] at h
        cases h
        refine ⟨{ r with last_used := s.epoch }, ?_, rfl, rfl⟩
        simp only [applyOp, get_or_create_ramp, hg, lookupRamp_touch_self, hg]
        rfl
      · refine ⟨r, ?_, rfl, rfl⟩
        simp only [applyOp, get_or_create_ramp, hg]
        rw [lookupRamp_touch_ne _ _ _ _ (fun hh => hk hh.symm)]
        exact h
    | none =>
      refine ⟨r, ?_, rfl, rfl⟩
      simp only [applyOp, get_or_create_ramp, hg]
      exact lookupRamp_append_of_some _ _ _ _ h
  | maintainOp => exact absurd rfl hop
  | markSyncedOp => exact ⟨r, h, rfl, rfl⟩
  | takeOp => exact ⟨r, h, rfl, rfl⟩
  | restoreOp l => exact ⟨r, h, rfl, rfl⟩

theorem lookup_stable_runOps (ops : List Op) :
    ∀ (s : GradientRampCache) (k : Nat) (r : CachedRamp),
    (∀ op ∈ ops, op ≠ Op.maintainOp) →
    lookupRamp s.cache k = some r →
    ∃ r2, lookupRamp (runOps s ops).cache k = some r2 ∧
      r2.lut_start = r.lut_start ∧ r2.width = r.width := by
  induction ops with
  | nil => intro s k r _ h; exact ⟨r, h, rfl, rfl⟩
  | cons op rest ih =>
    intro s k r hops h
    obtain ⟨r2, h2, hls, hw⟩ :=
      lookup_stable_applyOp s op k r (hops op (List.mem_cons_self _ _)) h
    obtain ⟨r3, h3, hls3, hw3⟩ :=
      ih (applyOp s op) k r2 (fun o ho => hops o (List.mem_cons_of_mem _ ho)) h2
    exact ⟨r3, h3, by rw [hls3, hls], by rw [hw3, hw]⟩

/-! ### Claim theorems: C4, C5, C6 -/

theorem get_create_on_miss (s : GradientRampCache) (g : EncodedGradient)
    (h : lookupRamp s.cache g.cache_key = none) :
    (get_or_create_ramp s g).1 =
      (s.luts.length / BYTES_PER_TEXEL, g.lutWidth) ∧
    (get_or_create_ramp s g).2.luts = s.luts ++ g.lutBytes ∧
    lookupRamp (get_or_create_ramp s g).2.cache g.cache_key =
      some { width := g.lutWidth,
             lut_start := s.luts.length / BYTES_PER_TEXEL,
             last_used := s.epoch } ∧
    (get_or_create_ramp s g).2.has_changed = true ∧
    (get_or_create_ramp s g).2.epoch = s.epoch := by
  refine ⟨?_, ?_, ?_, ?_, ?_⟩
  · simp [get_or_create_ramp, h]
  · simp [get_or_create_ramp, h]
  · simp only [get_or_create_ramp, h]
    rw [lookupRamp_append_of_none _ _ _ h]
    simp [lookupRamp]
  · simp [get_or_create_ramp, h]
  · simp [get_or_create_ramp, h]

/-- Claim C4: on a miss, `get_or_create_ramp` appends the generator's bytes to
the end of the packed buffer, records an entry with `lut_start` equal to the
buffer's pre-append length in texels, the generator's width and the current
epoch, sets the change flag, and returns that `(lut_start, width)`. -/
theorem get_miss_spec (s : GradientRampCache) (g : EncodedGradient)
    (h : lookupRamp s.cache g.cache_key = none) :
    (get_or_create_ramp s g).1 =
      (s.luts.length / BYTES_PER_TEXEL, g.lutWidth) ∧
    (get_or_create_ramp s g).2.luts = s.luts ++ g.lutBytes ∧
    lookupRamp (get_or_create_ramp s g).2.cache g.cache_key =
      some { width := g.lutWidth,
             lut_start := s.luts.length / BYTES_PER_TEXEL,
             last_used := s.epoch } ∧
    (get_or_create_ramp s g).2.has_changed = true ∧
    (get_or_create_ramp s g).2.epoch = s.epoch :=
  get_create_on_miss s g h

/-- Witness for C4 at a concrete miss. -/
theorem get_miss_spec_witness :
    lookupRamp (new 0).cache sampleG1.cache_key = none ∧
    ((get_or_create_ramp (new 0) sampleG1).1 =
      ((new 0).luts.length / BYTES_PER_TEXEL, sampleG1.lutWidth) ∧
    (get_or_create_ramp (new 0) sampleG1).2.luts =
      (new 0).luts ++ sampleG1.lutBytes ∧
    lookupRamp (get_or_create_ramp (new 0) sampleG1).2.cache
        sampleG1.cache_key =
      some { width := sampleG1.lutWidth,
             lut_start := (new 0).luts.length / BYTES_PER_TEXEL,
             last_used := (new 0).epoch } ∧
    (get_or_create_ramp (new 0) sampleG1).2.has_changed = true ∧
    (get_or_create_ramp (new 0) sampleG1).2.epoch = (new 0).epoch) :=
  ⟨by decide, get_miss_spec (new 0) sampleG1 (by decide)⟩

/-- Claim C5: on a hit, `get_or_create_ramp` returns the stored
`(lut_start, width)`, only bumps the entry's `last_used` to the current epoch,
and mutates neither the buffer nor the flag nor the epoch; moreover two
lookups of one key with no intervening `maintain` return identical pairs. -/
theorem get_hit_spec (s : GradientRampCache) (g : EncodedGradient)
    (r : CachedRamp) (h : lookupRamp s.cache g.cache_key = some r) :
    ((get_or_create_ramp s g).1 = (r.lut_start, r.width) ∧
    (get_or_create_ramp s g).2.luts = s.luts ∧
    (get_or_create_ramp s g).2.has_changed = s.has_changed ∧
    (get_or_create_ramp s g).2.epoch = s.epoch ∧
    lookupRamp (get_or_create_ramp s g).2.cache g.cache_key =
      some { r with last_used := s.epoch }) ∧
    (∀ (s2 : GradientRampCache) (g2 : EncodedGradient) (ops : List Op),
      (∀ op ∈ ops, op ≠ Op.maintainOp) →
      (get_or_create_ramp
        (runOps (get_or_create_ramp s2 g2).2 ops) g2).1 =
        (get_or_create_ramp s2 g2).1) := by
  constructor
  · refine ⟨?_, ?_, ?_, ?_, ?_⟩
    · simp [get_or_create_ramp, h]
    · simp [get_or_create_ramp, h]
    · simp [get_or_create_ramp, h]
    · simp [get_or_create_ramp, h]
    · simp only [get_or_create_ramp, h, lookupRamp_touch_self]
      rfl
  · intro s2 g2 ops hops
    obtain ⟨r1, h1, hpair⟩ := get_result_lookup s2 g2
    obtain ⟨r2, h2, hls, hw⟩ :=
      lookup_stable_runOps ops (get_or_create_ramp s2 g2).2 g2.cache_key r1
        hops h1
    rw [← hpair]
    generalize hT : runOps (get_or_create_ramp s2 g2).2 ops = t at h2
    simp [get_or_create_ramp, h2, hls, hw]

/-- Witness for C5 at a concrete hit, with a `mark_synced` between the two
lookups. -/
theorem get_hit_spec_witness :
    lookupRamp sampleState.cache sampleGHit.cache_key =
      some { width := 1, lut_start := 1, last_used := 1 } ∧
    ((get_or_create_ramp sampleState sampleGHit).1 = (1, 1) ∧
     (get_or_create_ramp
        (runOps (get_or_create_ramp (new 0) sampleG1).2 [Op.markSyncedOp])
        sampleG1).1 =
       (get_or_create_ramp (new 0) sampleG1).1) := by
  refine ⟨by decide, ?_, ?_⟩
  · exact ((get_hit_spec sampleState sampleGHit
      { width := 1, lut_start := 1, last_used := 1 } (by decide)).1).1
  · exact (get_hit_spec sampleState sampleGHit
      { width := 1, lut_start := 1, last_used := 1 } (by decide)).2
      (new 0) sampleG1 [Op.markSyncedOp] (by decide)

/-- Claim C6: the change flag is set by any miss and by any maintenance call
that evicts at least one entry (unconditionally); a pure hit and a no-op
maintenance leave it (and the buffer) untouched; `mark_synced` clears it, and
repeated clearing keeps it false. -/
theorem change_flag_spec (s : GradientRampCache) (g : EncodedGradient) :
    (lookupRamp s.cache g.cache_key = none →
      (get_or_create_ramp s g).2.has_changed = true) ∧
    (∀ r, lookupRamp s.cache g.cache_key = some r →
      (get_or_create_ramp s g).2.has_changed = s.has_changed ∧
      (get_or_create_ramp s g).2.luts = s.luts) ∧
    ((s.cache.filter (keepRamp s.epoch)).length < s.cache.length →
      (maintain s).has_changed = true) ∧
    ((s.cache.filter (keepRamp s.epoch)).length = s.cache.length →
      (maintain s).has_changed = s.has_changed ∧
      (maintain s).luts = s.luts ∧ (maintain s).cache = s.cache) ∧
    (mark_synced s).has_changed = false ∧
    (mark_synced (mark_synced s)).has_changed = false := by
  refine ⟨?_, ?_, ?_, ?_, rfl, rfl⟩
  · intro h; simp [get_or_create_ramp, h]
  · intro r h; simp [get_or_create_ramp, h]
  · intro hc; simp [maintain, hc]
  · intro hc
    have hsame : s.cache.filter (keepRamp s.epoch) = s.cache :=
      (List.filter_sublist _).eq_of_length hc
    have hnot : ¬ (s.cache.filter (keepRamp s.epoch)).length
        < s.cache.length := by omega
    refine ⟨?_, ?_, ?_⟩ <;> simp [maintain, hnot, hsame]

/-- Witness for C6: each flag transition at a concrete state. -/
theorem change_flag_spec_witness :
    (lookupRamp (new 0).cache sampleG1.cache_key = none ∧
      (get_or_create_ramp (new 0) sampleG1).2.has_changed = true) ∧
    (lookupRamp sampleState.cache sampleGHit.cache_key =
        some { width := 1, lut_start := 1, last_used := 1 } ∧
      (get_or_create_ramp sampleState sampleGHit).2.has_changed =
        sampleState.has_changed) ∧
    ((sampleState.cache.filter (keepRamp sampleState.epoch)).length
        < sampleState.cache.length ∧
      (maintain sampleState).has_changed = true) ∧
    ((freshState.cache.filter (keepRamp freshState.epoch)).length
        = freshState.cache.length ∧
      (maintain freshState).has_changed = freshState.has_changed) :=
  ⟨⟨by decide, (change_flag_spec (new 0) sampleG1).1 (by decide)⟩,
   ⟨by decide, ((change_flag_spec sampleState sampleGHit).2.1
      { width := 1, lut_start := 1, last_used := 1 } (by decide)).1⟩,
   ⟨by decide, (change_flag_spec sampleState sampleGHit).2.2.1 (by decide)⟩,
   ⟨by decide, ((change_flag_spec freshState sampleG1).2.2.2.1
      (by decide)).1⟩⟩

/-! ### Byte-slice lemmas -/

theorem sliceBytes_length_of_le (l : List Nat) (start len : Nat)
    (h : start + len ≤ l.length) : (sliceBytes l start len).length = len := by
  unfold sliceBytes
  rw [List.length_take, List.length_drop]
  omega

theorem sliceBytes_append_frozen (a t : List Nat) (start len : Nat)
    (h : start + len ≤ a.length) :
    sliceBytes (a ++ t) start len = sliceBytes a start len := by
  unfold sliceBytes
  rw [List.drop_append_of_le_length (by omega),
    List.take_append_of_le_length (by rw [List.length_drop]; omega)]

theorem sliceBytes_append_exact (a b : List Nat) (n : Nat) :
    sliceBytes (a ++ b) a.length n = b.take n := by
  unfold sliceBytes
  rw [List.drop_left]

/-! ### The compaction rebuild: full specification -/

theorem rebuildGo_cons (old : List Nat) (k0 : Nat) (r0 : CachedRamp)
    (rest : List (Nat × CachedRamp)) (acc : List Nat) :
    rebuildGo old ((k0, r0) :: rest) acc =
      ((k0, { r0 with lut_start := acc.length / BYTES_PER_TEXEL }) ::
        (rebuildGo old rest (acc ++ sliceBytes old
          (r0.lut_start * BYTES_PER_TEXEL) (r0.width * BYTES_PER_TEXEL))).1,
       (rebuildGo old rest (acc ++ sliceBytes old
          (r0.lut_start * BYTES_PER_TEXEL) (r0.width * BYTES_PER_TEXEL))).2) :=
  rfl

theorem rebuildGo_spec (old : List Nat) :
    ∀ (es : List (Nat × CachedRamp)) (acc : List Nat),
    (∀ p ∈ es, p.2.lut_start * BYTES_PER_TEXEL +
      p.2.width * BYTES_PER_TEXEL ≤ old.length) →
    BYTES_PER_TEXEL ∣ acc.length →
    (rebuildGo old es acc).2.length =
        acc.length + BYTES_PER_TEXEL * sumWidths es ∧
    wellPacked (rebuildGo old es acc).1
        (acc.length / BYTES_PER_TEXEL) = true ∧
    (rebuildGo old es acc).1.map Prod.fst = es.map Prod.fst ∧
    sumWidths (rebuildGo old es acc).1 = sumWidths es ∧
    (∃ t, (rebuildGo old es acc).2 = acc ++ t) ∧
    (∀ k r, lookupRamp es k = some r →
      ∃ r2, lookupRamp (rebuildGo old es acc).1 k = some r2 ∧
        r2.width = r.width ∧ r2.last_used = r.last_used ∧
        sliceBytes (rebuildGo old es acc).2
            (r2.lut_start * BYTES_PER_TEXEL) (r2.width * BYTES_PER_TEXEL) =
          sliceBytes old
            (r.lut_start * BYTES_PER_TEXEL) (r.width * BYTES_PER_TEXEL)) := by
  intro es
  induction es with
  | nil =>
    intro acc _ _
    refine ⟨?_, rfl, rfl, rfl, ⟨[], (List.append_nil acc).symm⟩, ?_⟩
    · simp [rebuildGo, sumWidths]
    · intro k r hk; simp [lookupRamp] at hk
  | cons q rest ih =>
    intro acc hb hd
    obtain ⟨k0, r0⟩ := q
    have hb0 := hb (k0, r0) (List.mem_cons_self _ _)
    simp only at hb0
    have hbrest : ∀ p ∈ rest, p.2.lut_start * BYTES_PER_TEXEL +
        p.2.width * BYTES_PER_TEXEL ≤ old.length :=
      fun p hp => hb p (List.mem_cons_of_mem _ hp)
    have hsrc : (sliceBytes old (r0.lut_start * BYTES_PER_TEXEL)
        (r0.width * BYTES_PER_TEXEL)).length = r0.width * BYTES_PER_TEXEL :=
      sliceBytes_length_of_le _ _ _ hb0
    have hd2 : BYTES_PER_TEXEL ∣ (acc ++ sliceBytes old
        (r0.lut_start * BYTES_PER_TEXEL)
        (r0.width * BYTES_PER_TEXEL)).length := by
      rw [List.length_append, hsrc]
      exact Nat.dvd_add hd ⟨r0.width, Nat.mul_comm r0.width BYTES_PER_TEXEL⟩
    obtain ⟨ihlen, ihwp, ihfst, ihsw, ⟨t, iht⟩, ihlook⟩ :=
      ih (acc ++ sliceBytes old (r0.lut_start * BYTES_PER_TEXEL)
        (r0.width * BYTES_PER_TEXEL)) hbrest hd2
    have hdn : (4 : Nat) ∣ acc.length := hd
    have hacclen : (acc ++ sliceBytes old (r0.lut_start * BYTES_PER_TEXEL)
        (r0.width * BYTES_PER_TEXEL)).length
        = acc.length + r0.width * BYTES_PER_TEXEL := by
      rw [List.length_append, hsrc]
    refine ⟨?_, ?_, ?_, ?_, ?_, ?_⟩
    · rw [rebuildGo_cons, ihlen, hacclen]
      simp only [sumWidths, List.map_cons, List.sum_cons, BYTES_PER_TEXEL]
      ring
    · rw [rebuildGo_cons, wellPacked_cons]
      simp only [beq_self_eq_true, Bool.true_and]
      have hdiv : (acc ++ sliceBytes old (r0.lut_start * BYTES_PER_TEXEL)
          (r0.width * BYTES_PER_TEXEL)).length / BYTES_PER_TEXEL
          = acc.length / BYTES_PER_TEXEL + r0.width := by
        rw [hacclen]
        simp only [BYTES_PER_TEXEL] at hdn ⊢
        omega
      rw [hdiv] at ihwp
      exact ihwp
    · rw [rebuildGo_cons]
      simp only [List.map_cons]
      rw [ihfst]
    · rw [rebuildGo_cons]
      simp only [sumWidths, List.map_cons, List.sum_cons] at ihsw ⊢
      rw [ihsw]
    · rw [rebuildGo_cons]
      refine ⟨sliceBytes old (r0.lut_start * BYTES_PER_TEXEL)
        (r0.width * BYTES_PER_TEXEL) ++ t, ?_⟩
      rw [iht, List.append_assoc]
    · intro k r hk
      rw [lookupRamp_cons] at hk
      by_cases hke : k0 = k
      · rw [if_pos hke] at hk
        cases hk
        refine ⟨{ r0 with lut_start := acc.length / BYTES_PER_TEXEL },
          ?_, rfl, rfl, ?_⟩
        · rw [rebuildGo_cons, lookupRamp_cons, if_pos hke]
        · rw [rebuildGo_cons]
          simp only
          rw [Nat.div_mul_cancel hd, iht, List.append_assoc,
            sliceBytes_append_exact]
          rw [List.take_append_of_le_length (by rw [hsrc]),
            List.take_of_length_le (by rw [hsrc])]
      · rw [if_neg hke] at hk
        obtain ⟨r2, h2, hw, hu, hs⟩ := ihlook k r hk
        refine ⟨r2, ?_, hw, hu, hs⟩
        rw [rebuildGo_cons, lookupRamp_cons, if_neg hke]
        exact h2

/-! ### Invariant preservation -/

theorem sum_widthBytes (c : List (Nat × CachedRamp)) :
    (c.map (fun p => p.2.width * BYTES_PER_TEXEL)).sum =
      BYTES_PER_TEXEL * sumWidths c := by
  induction c with
  | nil => simp [sumWidths]
  | cons p rest ih =>
    simp only [List.map_cons, List.sum_cons, sumWidths] at ih ⊢
    rw [ih]
    ring

theorem luts_texels (s : GradientRampCache) (hwf : WF s) :
    s.luts.length / BYTES_PER_TEXEL = sumWidths s.cache := by
  rw [hwf.2.1]
  exact Nat.mul_div_cancel_left _ (by norm_num [BYTES_PER_TEXEL])

theorem WF_new (lvl : Nat) : WF (new lvl) := by
  refine ⟨rfl, rfl, List.nodup_nil⟩

theorem WF_get (s : GradientRampCache) (g : EncodedGradient)
    (hwf : WF s) (hg : GenOK g) : WF (get_or_create_ramp s g).2 := by
  obtain ⟨hwp, hlen, hnd⟩ := hwf
  cases h : lookupRamp s.cache g.cache_key with
  | some r =>
    simp only [get_or_create_ramp, h]
    exact ⟨by rw [wellPacked_touch]; exact hwp,
      by rw [sumWidths_touch]; exact hlen,
      by rw [touch_map_fst]; exact hnd⟩
  | none =>
    simp only [get_or_create_ramp, h]
    have hdiv : s.luts.length / BYTES_PER_TEXEL = sumWidths s.cache :=
      luts_texels s ⟨hwp, hlen, hnd⟩
    refine ⟨?_, ?_, ?_⟩
    · rw [hdiv]
      have := wellPacked_append_one s.cache 0 hwp g.cache_key g.lutWidth s.epoch
      simpa using this
    · rw [List.length_append, sumWidths_append, hlen, hg]
      simp only [sumWidths, List.map_cons, List.map_nil, List.sum_cons,
        List.sum_nil]
      ring
    · rw [List.map_append]
      rw [List.nodup_append]
      refine ⟨hnd, List.nodup_singleton _, ?_⟩
      intro a ha hb
      simp only [List.map_cons, List.map_nil, List.mem_singleton] at hb
      subst hb
      exact (lookupRamp_eq_none_iff _ _).1 h ha

theorem WF_bounds (s : GradientRampCache) (hwf : WF s) :
    ∀ p ∈ s.cache, p.2.lut_start * BYTES_PER_TEXEL +
      p.2.width * BYTES_PER_TEXEL ≤ s.luts.length := by
  intro p hp
  have := wellPacked_bounds s.cache 0 hwf.1 p hp
  rw [hwf.2.1]
  simp only [BYTES_PER_TEXEL] at this ⊢
  omega

theorem WF_maintain (s : GradientRampCache) (hwf : WF s) :
    WF (maintain s) := by
  by_cases hc : (s.cache.filter (keepRamp s.epoch)).length < s.cache.length
  · have hb : ∀ p ∈ s.cache.filter (keepRamp s.epoch),
        p.2.lut_start * BYTES_PER_TEXEL + p.2.width * BYTES_PER_TEXEL
          ≤ s.luts.length :=
      fun p hp => WF_bounds s hwf p (List.mem_of_mem_filter hp)
    obtain ⟨hlen, hwp, hfst, hsw, _, _⟩ :=
      rebuildGo_spec s.luts (s.cache.filter (keepRamp s.epoch)) [] hb
        ⟨0, rfl⟩
    simp only [maintain, hc, if_true]
    refine ⟨?_, ?_, ?_⟩
    · simpa using hwp
    · simp only [List.length_nil, Nat.zero_add] at hlen
      rw [hlen, hsw]
    · rw [hfst]
      exact hwf.2.2.sublist ((List.filter_sublist _).map Prod.fst)
  · have hsame : s.cache.filter (keepRamp s.epoch) = s.cache :=
      (List.filter_sublist _).eq_of_length
        (Nat.le_antisymm (List.length_filter_le _ _) (by omega))
    simp only [maintain, hc, if_false]
    rw [hsame]
    exact ⟨hwf.1, hwf.2.1, hwf.2.2⟩

theorem WF_layoutOK (s : GradientRampCache) (hwf : WF s) : LayoutOK s := by
  obtain ⟨hwp, hlen, _⟩ := hwf
  refine ⟨?_, ?_, ?_⟩
  · rw [sum_widthBytes, hlen]
  · have hord := wellPacked_ordered s.cache 0 hwp
    refine hord.imp ?_
    intro p q hpq b hb
    obtain ⟨⟨hb1, hb2⟩, ⟨hb3, hb4⟩⟩ := hb
    simp only [coveredBy, BYTES_PER_TEXEL] at hb1 hb2 hb3 hb4
    omega
  · intro b hb
    have := wellPacked_cover s.cache 0 hwp b (Nat.zero_le _)
    apply this
    rw [hlen] at hb
    simp only [BYTES_PER_TEXEL] at hb ⊢
    omega

/-! ### Claim theorems: C2, C3 -/

/-- Claim C2: after every completed operation (lookup with a contract-abiding
generator, maintenance, `mark_synced`, and a bracketed take/restore pair), the
widths (times 4 bytes) of the live entries sum to the packed buffer's length
and their byte regions are pairwise disjoint and cover `[0, length)` with no
gaps; moreover the well-formedness invariant is preserved by each operation
and holds for a fresh cache. -/
theorem layout_invariant_spec (s : GradientRampCache) (g : EncodedGradient)
    (lvl : Nat) (hwf : WF s) (hg : GenOK g) :
    LayoutOK (get_or_create_ramp s g).2 ∧
    LayoutOK (maintain s) ∧
    LayoutOK (mark_synced s) ∧
    LayoutOK (restore_luts (take_luts s).2 (take_luts s).1) ∧
    WF (new lvl) ∧
    WF (get_or_create_ramp s g).2 ∧
    WF (maintain s) ∧
    WF (mark_synced s) ∧
    WF (restore_luts (take_luts s).2 (take_luts s).1) := by
  have hms : WF (mark_synced s) := ⟨hwf.1, hwf.2.1, hwf.2.2⟩
  have htr : WF (restore_luts (take_luts s).2 (take_luts s).1) := hwf
  exact ⟨WF_layoutOK _ (WF_get s g hwf hg),
    WF_layoutOK _ (WF_maintain s hwf),
    WF_layoutOK _ hms, WF_layoutOK _ htr,
    WF_new lvl, WF_get s g hwf hg, WF_maintain s hwf, hms, htr⟩

/-- Witness for C2 at a concrete well-formed state and gradient. -/
theorem layout_invariant_spec_witness :
    WF sampleState ∧ GenOK sampleG2 ∧
    (LayoutOK (get_or_create_ramp sampleState sampleG2).2 ∧
     LayoutOK (maintain sampleState) ∧
     LayoutOK (mark_synced sampleState) ∧
     LayoutOK (restore_luts (take_luts sampleState).2
        (take_luts sampleState).1) ∧
     WF (new 0) ∧
     WF (get_or_create_ramp sampleState sampleG2).2 ∧
     WF (maintain sampleState) ∧
     WF (mark_synced sampleState) ∧
     WF (restore_luts (take_luts sampleState).2 (take_luts sampleState).1)) :=
  ⟨by decide, by decide,
    layout_invariant_spec sampleState sampleG2 0 (by decide) (by decide)⟩

/-- Claim C3: when a `maintain` call evicts at least one entry, every
surviving key keeps its width, and the bytes at its rewritten region in the
rebuilt buffer equal the bytes at its old region in the old buffer. -/
theorem compaction_preserves_content (s : GradientRampCache)
    (hwf : WF s)
    (hrem : (s.cache.filter (keepRamp s.epoch)).length < s.cache.length)
    (k : Nat) (r : CachedRamp)
    (hk : lookupRamp s.cache k = some r)
    (hu : s.epoch ≤ r.last_used) :
    ∃ r2, lookupRamp (maintain s).cache k = some r2 ∧
      r2.width = r.width ∧
      sliceBytes (maintain s).luts (r2.lut_start * BYTES_PER_TEXEL)
          (r2.width * BYTES_PER_TEXEL) =
        sliceBytes s.luts (r.lut_start * BYTES_PER_TEXEL)
          (r.width * BYTES_PER_TEXEL) := by
  have hsurv : lookupRamp (s.cache.filter (keepRamp s.epoch)) k = some r := by
    rw [lookupRamp_filter _ _ _ hwf.2.2, hk]
    simp [keepRamp, hu]
  have hb : ∀ p ∈ s.cache.filter (keepRamp s.epoch),
      p.2.lut_start * BYTES_PER_TEXEL + p.2.width * BYTES_PER_TEXEL
        ≤ s.luts.length :=
    fun p hp => WF_bounds s hwf p (List.mem_of_mem_filter hp)
  obtain ⟨_, _, _, _, _, hlook⟩ :=
    rebuildGo_spec s.luts (s.cache.filter (keepRamp s.epoch)) [] hb ⟨0, rfl⟩
  obtain ⟨r2, h2, hw, _, hs⟩ := hlook k r hsurv
  refine ⟨r2, ?_, hw, ?_⟩
  · simp only [maintain, hrem, if_true]
    exact h2
  · simp only [maintain, hrem, if_true]
    exact hs

/-- Witness for C3: evicting entry 1 of `sampleState` relocates survivor 2's
bytes intact. -/
theorem compaction_preserves_content_witness :
    WF sampleState ∧
    (sampleState.cache.filter (keepRamp sampleState.epoch)).length
      < sampleState.cache.length ∧
    lookupRamp sampleState.cache 2 =
      some { width := 1, lut_start := 1, last_used := 1 } ∧
    sampleState.epoch ≤ 1 ∧
    (∃ r2, lookupRamp (maintain sampleState).cache 2 = some r2 ∧
      r2.width = 1 ∧
      sliceBytes (maintain sampleState).luts (r2.lut_start * BYTES_PER_TEXEL)
          (r2.width * BYTES_PER_TEXEL) =
        sliceBytes sampleState.luts (1 * BYTES_PER_TEXEL)
          (1 * BYTES_PER_TEXEL)) :=
  ⟨by decide, by decide, by decide, by decide,
    compaction_preserves_content sampleState (by decide) (by decide) 2
      { width := 1, lut_start := 1, last_used := 1 } (by decide) (by decide)⟩

/-! ### Claim theorem: C8 -/

/-- Claim C8: a zero-width generator is accepted: the miss records a width-0
entry at the current end-of-buffer offset, leaves the buffer unchanged, the
next miss receives the same `lut_start`, and the layout invariant still
holds. -/
theorem zero_width_spec (s : GradientRampCache) (g : EncodedGradient)
    (h : lookupRamp s.cache g.cache_key = none)
    (hw : g.lutWidth = 0) (hg : GenOK g) :
    (get_or_create_ramp s g).1 = (s.luts.length / BYTES_PER_TEXEL, 0) ∧
    (get_or_create_ramp s g).2.luts = s.luts ∧
    lookupRamp (get_or_create_ramp s g).2.cache g.cache_key =
      some { width := 0, lut_start := s.luts.length / BYTES_PER_TEXEL,
             last_used := s.epoch } ∧
    (∀ g2, lookupRamp (get_or_create_ramp s g).2.cache g2.cache_key = none →
      (get_or_create_ramp (get_or_create_ramp s g).2 g2).1.1 =
        s.luts.length / BYTES_PER_TEXEL) ∧
    (WF s → WF (get_or_create_ramp s g).2) := by
  have hbytes : g.lutBytes = [] := by
    apply List.eq_nil_of_length_eq_zero
    rw [hg, hw, Nat.mul_zero]
  have hluts : (get_or_create_ramp s g).2.luts = s.luts := by
    simp [get_or_create_ramp, h, hbytes]
  refine ⟨?_, hluts, ?_, ?_, ?_⟩
  · simp [get_or_create_ramp, h, hw]
  · simp only [get_or_create_ramp, h]
    rw [lookupRamp_append_of_none _ _ _ h]
    simp [lookupRamp, hw]
  · intro g2 h2
    have := (get_create_on_miss (get_or_create_ramp s g).2 g2 h2).1
    rw [this]
    simp only
    rw [hluts]
  · intro hwf
    exact WF_get s g hwf hg

/-- Witness for C8: a zero-width miss on a fresh cache, followed by a second
miss that receives the same offset. -/
theorem zero_width_spec_witness :
    lookupRamp (new 0).cache sampleG0.cache_key = none ∧
    sampleG0.lutWidth = 0 ∧ GenOK sampleG0 ∧
    ((get_or_create_ramp (new 0) sampleG0).1 =
      ((new 0).luts.length / BYTES_PER_TEXEL, 0) ∧
    (get_or_create_ramp (new 0) sampleG0).2.luts = (new 0).luts ∧
    lookupRamp (get_or_create_ramp (new 0) sampleG0).2.cache
        sampleG0.cache_key =
      some { width := 0, lut_start := (new 0).luts.length / BYTES_PER_TEXEL,
             last_used := (new 0).epoch } ∧
    (∀ g2, lookupRamp (get_or_create_ramp (new 0) sampleG0).2.cache
        g2.cache_key = none →
      (get_or_create_ramp (get_or_create_ramp (new 0) sampleG0).2 g2).1.1 =
        (new 0).luts.length / BYTES_PER_TEXEL) ∧
    (WF (new 0) → WF (get_or_create_ramp (new 0) sampleG0).2)) :=
  ⟨by decide, by decide, by decide,
    zero_width_spec (new 0) sampleG0 (by decide) (by decide) (by decide)⟩

/-! ### Frame-trace lemmas for eviction exactness -/

theorem lookupRamp_mem (c : List (Nat × CachedRamp)) (k : Nat)
    (r : CachedRamp) (h : lookupRamp c k = some r) : (k, r) ∈ c := by
  induction c with
  | nil => simp [lookupRamp] at h
  | cons p rest ih =>
    obtain ⟨k0, r0⟩ := p
    rw [lookupRamp_cons] at h
    by_cases hk : k0 = k
    · rw [if_pos hk] at h
      cases h
      subst hk
      exact List.mem_cons_self _ _
    · rw [if_neg hk] at h
      exact List.mem_cons_of_mem _ (ih h)

theorem lookupRamp_append_singleton_ne (c : List (Nat × CachedRamp))
    (key : Nat) (x : CachedRamp) (k : Nat) (h : k ≠ key) :
    lookupRamp (c ++ [(key, x)]) k = lookupRamp c k := by
  cases hc : lookupRamp c k with
  | some r => exact lookupRamp_append_of_some _ _ _ _ hc
  | none =>
    rw [lookupRamp_append_of_none _ _ _ hc, lookupRamp_cons,
      if_neg (fun hh => h hh.symm)]
    rfl

theorem runGets_epoch (gs : List EncodedGradient) :
    ∀ s : GradientRampCache, (runGets s gs).epoch = s.epoch := by
  induction gs with
  | nil => intro s; rfl
  | cons g rest ih =>
    intro s
    rw [runGets, ih, get_epoch]

theorem get_nodup (s : GradientRampCache) (g : EncodedGradient)
    (hnd : (s.cache.map Prod.fst).Nodup) :
    ((get_or_create_ramp s g).2.cache.map Prod.fst).Nodup := by
  cases h : lookupRamp s.cache g.cache_key with
  | some r =>
    simp only [get_or_create_ramp, h]
    rw [touch_map_fst]
    exact hnd
  | none =>
    simp only [get_or_create_ramp, h]
    rw [List.map_append, List.nodup_append]
    refine ⟨hnd, List.nodup_singleton _, ?_⟩
    intro a ha hb
    simp only [List.map_cons, List.map_nil, List.mem_singleton] at hb
    subst hb
    exact (lookupRamp_eq_none_iff _ _).1 h ha

theorem runGets_nodup (gs : List EncodedGradient) :
    ∀ s : GradientRampCache, (s.cache.map Prod.fst).Nodup →
    ((runGets s gs).cache.map Prod.fst).Nodup := by
  induction gs with
  | nil => intro s h; exact h
  | cons g rest ih =>
    intro s h
    exact ih _ (get_nodup s g h)

theorem mem_touch (c : List (Nat × CachedRamp)) (key e : Nat) :
    ∀ p ∈ touch c key e, ∃ q ∈ c,
      p.2 = q.2 ∨ p.2 = { q.2 with last_used := e } := by
  intro p hp
  obtain ⟨q, hq, hpq⟩ := List.mem_map.1 hp
  refine ⟨q, hq, ?_⟩
  by_cases hk : q.1 = key
  · right
    rw [← hpq]
    simp [hk]
  · left
    rw [← hpq]
    simp [hk]

theorem epochLE_get (s : GradientRampCache) (g : EncodedGradient)
    (h : EpochLE s) : EpochLE (get_or_create_ramp s g).2 := by
  cases hg : lookupRamp s.cache g.cache_key with
  | some r =>
    simp only [EpochLE, get_or_create_ramp, hg]
    intro p hp
    obtain ⟨q, hq, hcase⟩ := mem_touch s.cache g.cache_key s.epoch p hp
    rcases hcase with hc | hc
    · rw [hc]; exact h q hq
    · rw [hc]
  | none =>
    simp only [EpochLE, get_or_create_ramp, hg]
    intro p hp
    rcases List.mem_append.1 hp with hp | hp
    · exact h p hp
    · simp only [List.mem_singleton] at hp
      subst hp
      exact Nat.le_refl _

theorem runGets_epochLE (gs : List EncodedGradient) :
    ∀ s : GradientRampCache, EpochLE s → EpochLE (runGets s gs) := by
  induction gs with
  | nil => intro s h; exact h
  | cons g rest ih =>
    intro s h
    exact ih _ (epochLE_get s g h)

theorem get_touched (s : GradientRampCache) (g : EncodedGradient) (k : Nat) :
    (∃ r, lookupRamp (get_or_create_ramp s g).2.cache k = some r ∧
        s.epoch ≤ r.last_used) ↔
      (k = g.cache_key ∨
        (∃ r, lookupRamp s.cache k = some r ∧ s.epoch ≤ r.last_used)) := by
  by_cases hkey : k = g.cache_key
  · subst hkey
    cases h : lookupRamp s.cache g.cache_key with
    | some rg =>
      apply iff_of_true _ (Or.inl rfl)
      refine ⟨{ rg with last_used := s.epoch }, ?_, Nat.le_refl _⟩
      simp only [get_or_create_ramp, h, lookupRamp_touch_self]
      rfl
    | none =>
      apply iff_of_true _ (Or.inl rfl)
      refine ⟨{ width := g.lutWidth,
                lut_start := s.luts.length / BYTES_PER_TEXEL,
                last_used := s.epoch }, ?_, Nat.le_refl _⟩
      simp only [get_or_create_ramp, h]
      rw [lookupRamp_append_of_none _ _ _ h]
      simp [lookupRamp]
  · have hstay : lookupRamp (get_or_create_ramp s g).2.cache k =
        lookupRamp s.cache k := by
      cases h : lookupRamp s.cache g.cache_key with
      | some rg =>
        simp only [get_or_create_ramp, h]
        exact lookupRamp_touch_ne _ _ _ _ hkey
      | none =>
        simp only [get_or_create_ramp, h]
        exact lookupRamp_append_singleton_ne _ _ _ _ hkey
    rw [hstay]
    simp [hkey]

theorem runGets_touched (gs : List EncodedGradient) :
    ∀ (s : GradientRampCache) (T : List Nat),
    (∀ k, (∃ r, lookupRamp s.cache k = some r ∧ s.epoch ≤ r.last_used) ↔
      k ∈ T) →
    ∀ k, (∃ r, lookupRamp (runGets s gs).cache k = some r ∧
        (runGets s gs).epoch ≤ r.last_used) ↔
      (k ∈ T ∨ k ∈ gs.map EncodedGradient.cache_key) := by
  induction gs with
  | nil =>
    intro s T hT k
    rw [runGets]
    simp [hT k]
  | cons g rest ih =>
    intro s T hT k
    rw [runGets]
    have hT2 : ∀ k2, (∃ r, lookupRamp (get_or_create_ramp s g).2.cache k2 =
        some r ∧ (get_or_create_ramp s g).2.epoch ≤ r.last_used) ↔
        k2 ∈ g.cache_key :: T := by
      intro k2
      rw [get_epoch, get_touched, List.mem_cons, hT k2]
    rw [ih (get_or_create_ramp s g).2 (g.cache_key :: T) hT2 k]
    simp only [List.mem_cons, List.map_cons]
    tauto

/-! ### Maintain lookup characterization -/

theorem rebuildGo_lookup_none (old : List Nat) :
    ∀ (es : List (Nat × CachedRamp)) (acc : List Nat) (k : Nat),
    lookupRamp es k = none →
    lookupRamp (rebuildGo old es acc).1 k = none := by
  intro es
  induction es with
  | nil => intro acc k _; rfl
  | cons q rest ih =>
    intro acc k h
    obtain ⟨k0, r0⟩ := q
    rw [lookupRamp_cons] at h
    by_cases hk : k0 = k
    · rw [if_pos hk] at h; cases h
    · rw [if_neg hk] at h
      rw [rebuildGo_cons, lookupRamp_cons, if_neg hk]
      exact ih _ k h

theorem rebuildGo_lookup_some (old : List Nat) :
    ∀ (es : List (Nat × CachedRamp)) (acc : List Nat) (k : Nat)
      (r : CachedRamp),
    lookupRamp es k = some r →
    ∃ r2, lookupRamp (rebuildGo old es acc).1 k = some r2 ∧
      r2.width = r.width ∧ r2.last_used = r.last_used := by
  intro es
  induction es with
  | nil => intro acc k r h; simp [lookupRamp] at h
  | cons q rest ih =>
    intro acc k r h
    obtain ⟨k0, r0⟩ := q
    rw [lookupRamp_cons] at h
    by_cases hk : k0 = k
    · rw [if_pos hk] at h
      cases h
      refine ⟨{ r with lut_start := acc.length / BYTES_PER_TEXEL },
        ?_, rfl, rfl⟩
      rw [rebuildGo_cons, lookupRamp_cons, if_pos hk]
    · rw [if_neg hk] at h
      obtain ⟨r2, h2, hw, hu⟩ := ih _ k r h
      refine ⟨r2, ?_, hw, hu⟩
      rw [rebuildGo_cons, lookupRamp_cons, if_neg hk]
      exact h2

theorem survivors_lookup (s : GradientRampCache)
    (hnd : (s.cache.map Prod.fst).Nodup) (k : Nat) :
    lookupRamp (s.cache.filter (keepRamp s.epoch)) k =
      (lookupRamp s.cache k).bind
        (fun r => if s.epoch ≤ r.last_used then some r else none) := by
  rw [lookupRamp_filter _ _ _ hnd]
  cases h : lookupRamp s.cache k with
  | none => rfl
  | some r => simp [keepRamp]

theorem maintain_lookup_isSome (s : GradientRampCache)
    (hnd : (s.cache.map Prod.fst).Nodup) (k : Nat) :
    (lookupRamp (maintain s).cache k).isSome = true ↔
      (∃ r, lookupRamp s.cache k = some r ∧ s.epoch ≤ r.last_used) := by
  have hs := survivors_lookup s hnd k
  by_cases hc : (s.cache.filter (keepRamp s.epoch)).length < s.cache.length
  · simp only [maintain, hc, if_true]
    constructor
    · intro hsome
      cases hr : lookupRamp (s.cache.filter (keepRamp s.epoch)) k with
      | none =>
        rw [rebuildGo_lookup_none s.luts _ [] k hr] at hsome
        simp at hsome
      | some r =>
        rw [hs] at hr
        cases hl : lookupRamp s.cache k with
        | none => rw [hl] at hr; simp at hr
        | some r0 =>
          rw [hl] at hr
          by_cases hle : s.epoch ≤ r0.last_used
          · exact ⟨r0, rfl, hle⟩
          · simp [hle] at hr
    · intro ⟨r, hl, hle⟩
      have hsv : lookupRamp (s.cache.filter (keepRamp s.epoch)) k = some r := by
        rw [hs, hl]
        simp [hle]
      obtain ⟨r2, h2, _, _⟩ := rebuildGo_lookup_some s.luts _ [] k r hsv
      rw [h2]
      rfl
  · simp only [maintain, hc, if_false]
    rw [hs]
    cases hl : lookupRamp s.cache k with
    | none => simp
    | some r =>
      by_cases hle : s.epoch ≤ r.last_used <;> simp [hle]

theorem maintain_lookup_source (s : GradientRampCache)
    (hnd : (s.cache.map Prod.fst).Nodup) (k : Nat) (r2 : CachedRamp)
    (h : lookupRamp (maintain s).cache k = some r2) :
    ∃ r, lookupRamp s.cache k = some r ∧ s.epoch ≤ r.last_used ∧
      r2.last_used = r.last_used := by
  have hs := survivors_lookup s hnd k
  by_cases hc : (s.cache.filter (keepRamp s.epoch)).length < s.cache.length
  · simp only [maintain, hc, if_true] at h
    cases hr : lookupRamp (s.cache.filter (keepRamp s.epoch)) k with
    | none =>
      rw [rebuildGo_lookup_none s.luts _ [] k hr] at h
      cases h
    | some r =>
      obtain ⟨r2x, h2, _, hu⟩ := rebuildGo_lookup_some s.luts _ [] k r hr
      rw [h2] at h
      cases h
      rw [hs] at hr
      cases hl : lookupRamp s.cache k with
      | none => rw [hl] at hr; simp at hr
      | some r0 =>
        rw [hl] at hr
        by_cases hle : s.epoch ≤ r0.last_used
        · simp only [Option.some_bind, if_pos hle, Option.some.injEq] at hr
          subst hr
          exact ⟨r0, rfl, hle, hu⟩
        · simp [hle] at hr
  · simp only [maintain, hc, if_false] at h
    rw [hs] at h
    cases hl : lookupRamp s.cache k with
    | none => rw [hl] at h; cases h
    | some r0 =>
      rw [hl] at h
      by_cases hle : s.epoch ≤ r0.last_used
      · simp only [Option.some_bind, if_pos hle, Option.some.injEq] at h
        subst h
        exact ⟨r0, rfl, hle, rfl⟩
      · simp [hle] at h

/-! ### Claim theorem: C1 -/

/-- Claim C1: starting from a frame boundary and running any list of lookups
followed by `maintain`: the call removes exactly the entries whose
`last_used` is strictly below the in-effect epoch; a key survives the call
iff it was looked up (hit or miss) during that frame; and every survivor's
`last_used` equals the epoch that was current during the call. -/
theorem maintain_eviction_exact (s : GradientRampCache)
    (gs : List EncodedGradient)
    (hnd : (s.cache.map Prod.fst).Nodup)
    (hfs : FrameStart s) :
    (∀ k r, lookupRamp (runGets s gs).cache k = some r →
      ((lookupRamp (maintain (runGets s gs)).cache k).isSome = true ↔
        (runGets s gs).epoch ≤ r.last_used)) ∧
    (∀ k, (lookupRamp (maintain (runGets s gs)).cache k).isSome = true ↔
      k ∈ gs.map EncodedGradient.cache_key) ∧
    (∀ k r2, lookupRamp (maintain (runGets s gs)).cache k = some r2 →
      r2.last_used = (runGets s gs).epoch) := by
  have hnd2 : ((runGets s gs).cache.map Prod.fst).Nodup :=
    runGets_nodup gs s hnd
  have hT : ∀ k, (∃ r, lookupRamp s.cache k = some r ∧
      s.epoch ≤ r.last_used) ↔ k ∈ ([] : List Nat) := by
    intro k
    simp only [List.not_mem_nil, iff_false]
    rintro ⟨r, hr, hle⟩
    have := hfs (k, r) (lookupRamp_mem s.cache k r hr)
    simp only at this
    omega
  refine ⟨?_, ?_, ?_⟩
  · intro k r hk
    rw [maintain_lookup_isSome _ hnd2 k]
    constructor
    · rintro ⟨r1, hr1, hle⟩
      rw [hk] at hr1
      cases hr1
      exact hle
    · intro hle
      exact ⟨r, hk, hle⟩
  · intro k
    rw [maintain_lookup_isSome _ hnd2 k,
      runGets_touched gs s [] hT k]
    simp
  · intro k r2 h2
    obtain ⟨r, hr, hle, hu⟩ := maintain_lookup_source _ hnd2 k r2 h2
    have hmem := lookupRamp_mem _ k r hr
    have hub : r.last_used ≤ (runGets s gs).epoch := by
      have hEP : EpochLE (runGets s gs) :=
        runGets_epochLE gs s (fun p hp => Nat.le_of_lt (hfs p hp))
      exact hEP (k, r) hmem
    omega

/-- Witness for C1: one stale entry, one fresh lookup, then `maintain`. -/
theorem maintain_eviction_exact_witness :
    (frameState.cache.map Prod.fst).Nodup ∧ FrameStart frameState ∧
    ((lookupRamp (maintain (runGets frameState [sampleG1])).cache
        sampleG1.cache_key).isSome = true ↔
      sampleG1.cache_key ∈ [sampleG1].map EncodedGradient.cache_key) :=
  ⟨by decide, by decide,
    (maintain_eviction_exact frameState [sampleG1] (by decide)
      (by decide)).2.1 sampleG1.cache_key⟩

end GradientCache
